import Mathlib

/-!
# Verification of the storie-tool capture-to-encode pipeline

Shallow embedding of the frame resampling / encoding logic of the
`storie-tool` repository, together with theorems settling the frozen claims
about its specification.

Two encoding paths exist in the source and are both modelled here:

* the worker path: `encodeVideo` in `src/workers/frame-processor.js`
  (nearest-frame resampling over a fixed-rate output timeline with
  duplicate suppression, a near-end boundary policy, and a second pass
  appending never-chosen input frames);
* the converter path: `processFrameQueue` / `processFrame` /
  `captureFrame` / `initializeEncoder` and the `ImageData` pool in
  `src/components/video-converter.js` (chunked processing of the capture
  queue with per-chunk target times, global microsecond timestamps,
  per-frame encode timeout, and a configure-retry fallback).

Timestamps are modelled as rationals (milliseconds, as in the source, where
they come from `video.currentTime * 1000`); microsecond timestamps handed to
the encoder are integers obtained by JavaScript `Math.round`, modelled as
`⌊q + 1/2⌋`.  All decision points of the claims were checked to agree with
IEEE-754 double evaluation of the source expressions.
-/

/-- JavaScript `Math.round`: round half towards positive infinity,
`Math.round x = ⌊x + 1/2⌋`. -/
def jsRound (q : ℚ) : ℤ := ⌊q + 1 / 2⌋

/-- JavaScript `Number.MAX_VALUE`, the initial `smallestTimeDiff` of the
nearest-frame scan in `encodeVideo`: `(2^53 - 1) * 2^971`, written as a
numeral (see `jsMaxValue_eq`) so that concrete runs of the model reduce. -/
def jsMaxValue : ℚ := 179769313486231570814527423731704356798070567525844996598917476803157260780028538760589558632766878171540458953514382464234321326889464182768467546703537516986049910576551282076245490090389328944075868508455133942304583236903222948165808559332123348274797826204144723168738177180919299881250404026184124858368

/-- An input frame as received by the worker `encodeVideo`
(`frame-processor.js`): a capture timestamp in milliseconds and the
`frame.bitmap` payload, abstracted to its presence. -/
structure WFrame where
  timestamp : ℚ
  bitmap : Bool
deriving DecidableEq, Repr

/-- Source `microSecondsPerFrame = 1000000 / outputFrameRate` (`frame-processor.js`
line 332). -/
def microPerFrame (fps : ℚ) : ℚ := 1000000 / fps

/-- Source `targetOutputTime = outputFrameIndex * microSecondsPerFrame / 1000`, the
target time of an output slot in milliseconds (`frame-processor.js` line
347). -/
def wTarget (fps : ℚ) (idx : ℕ) : ℚ := (idx : ℚ) * microPerFrame fps / 1000

/-- The nearest-frame scan of `encodeVideo` (`frame-processor.js` lines
350-364): walk the frames in order keeping the index of the smallest
absolute timestamp difference, breaking once a frame's timestamp exceeds
`target + 100`.  Arguments: remaining frames, index of the next frame,
current best index, current smallest difference. -/
def closestScan (target : ℚ) : List WFrame → ℕ → ℕ → ℚ → ℕ
  | [], _, best, _ => best
  | f :: rest, i, best, bestDiff =>
    let d := |f.timestamp - target|
    let best2 := if d < bestDiff then i else best
    let diff2 := if d < bestDiff then d else bestDiff
    if target + 100 < f.timestamp then best2
    else closestScan target rest (i + 1) best2 diff2

/-- Source `closestFrameIndex` for a given target time: the scan started at index 0
with `smallestTimeDiff = Number.MAX_VALUE`. -/
def closestFrameIndex (frames : List WFrame) (target : ℚ) : ℕ :=
  closestScan target frames 0 0 jsMaxValue

/-- The input frame selected for output slot `idx`. -/
def wChoice (frames : List WFrame) (fps : ℚ) (idx : ℕ) : ℕ :=
  closestFrameIndex frames (wTarget fps idx)

/-- Source `frames[i].bitmap` truthiness (false when out of range). -/
def bitmapAt (frames : List WFrame) (i : ℕ) : Bool :=
  match frames.get? i with
  | some f => f.bitmap
  | none => false

/-- One submission to `videoEncoder.encode`: the output frame index, the
`VideoFrame` timestamp in microseconds, and the index of the input frame
whose bitmap was drawn. -/
structure Submission where
  outIdx : ℕ
  timestampMicros : ℤ
  inputIdx : ℕ
deriving DecidableEq, Repr

/-- State of the worker encoding loop: `outputFrameIndex`,
`lastProcessedInputFrame` (initially `-1`), `processedFrameIndices`, and the
list of submissions made to the encoder so far. -/
structure WState where
  outIdx : ℕ
  lastProcessed : ℤ
  processedIdx : Finset ℕ
  outSubs : List Submission
deriving DecidableEq

/-- Initial worker state (`frame-processor.js` lines 339-343). -/
def initWState : WState := ⟨0, -1, ∅, []⟩

/-- Number of iterations of the main `while` loop of `encodeVideo`: the
loop runs while `outputFrameIndex * microSecondsPerFrame <= videoDuration *
1000` and `outputFrameIndex` is incremented exactly once per iteration
(both in the duplicate-skip branch and in the normal branch), so for
`fps > 0` it visits exactly the indices `0, ..., ⌊videoDuration*fps/1000⌋`;
see `slotCount_spec`. -/
def slotCount (videoDuration fps : ℚ) : ℕ :=
  (⌊videoDuration * fps / 1000⌋ + 1).toNat

/-- One iteration of the main loop of `encodeVideo` (`frame-processor.js`
lines 345-421) at `idx = outputFrameIndex`: select the nearest input frame,
mark it processed, skip the slot when it repeats the previous selection
away from the near-end region, otherwise submit a `VideoFrame` timestamped
`Math.round(outputFrameIndex * microSecondsPerFrame)` (when the frame has a
bitmap).  Encoding is modelled as succeeding; on an encode error the source
merely logs and closes the frame, which leaves this state identical. -/
def stepSlot (frames : List WFrame) (videoDuration fps : ℚ) (st : WState) : WState :=
  let idx := st.outIdx
  let targetOutputTime := wTarget fps idx
  let ci := closestFrameIndex frames targetOutputTime
  let processed2 := insert ci st.processedIdx
  if ¬ videoDuration * (9 / 10) ≤ targetOutputTime ∧ (ci : ℤ) = st.lastProcessed ∧
      1 < frames.length ∧ 0 < idx then
    { st with processedIdx := processed2, outIdx := idx + 1 }
  else
    let base : WState :=
      { outIdx := idx + 1, lastProcessed := (ci : ℤ), processedIdx := processed2,
        outSubs := st.outSubs }
    if bitmapAt frames ci then
      { base with
          outSubs := st.outSubs ++
            [⟨idx, jsRound ((idx : ℚ) * microPerFrame fps), ci⟩] }
    else base

/-- The main resampling pass of `encodeVideo`: the `while` loop, expressed
as a fold over its exact iteration count (`slotCount_spec` ties the count to
the loop condition). -/
def encodeMainPass (frames : List WFrame) (videoDuration fps : ℚ) : WState :=
  (List.range (slotCount videoDuration fps)).foldl
    (fun st _ => stepSlot frames videoDuration fps st) initWState

/-- One iteration of the second pass of `encodeVideo` (`frame-processor.js`
lines 424-448): an input frame never selected by the scan is submitted at
the current `outputFrameIndex` (when it has a bitmap), and the index
advances.  Encoding is modelled as succeeding. -/
def tailStep (frames : List WFrame) (fps : ℚ) (st : WState) (i : ℕ) : WState :=
  if i ∉ st.processedIdx then
    if bitmapAt frames i then
      { st with
          outSubs := st.outSubs ++
            [⟨st.outIdx, jsRound ((st.outIdx : ℚ) * microPerFrame fps), i⟩],
          outIdx := st.outIdx + 1 }
    else st
  else st

/-- The second pass of `encodeVideo` over all input frame indices. -/
def tailPass (frames : List WFrame) (fps : ℚ) (st : WState) : WState :=
  (List.range frames.length).foldl (tailStep frames fps) st

/-- A complete `encodeVideo` run: main resampling pass followed by the
appended never-chosen frames. -/
def encodeVideoRun (frames : List WFrame) (videoDuration fps : ℚ) : WState :=
  tailPass frames fps (encodeMainPass frames videoDuration fps)

/-- The duplicate-skip condition of the main loop at output index `idx`
(`frame-processor.js` line 385), phrased against the selection function:
away from the final ~10% of the duration, the slot repeats the previous
slot's selection, there is more than one input frame, and the index is
positive. -/
def wSkip (frames : List WFrame) (videoDuration fps : ℚ) (idx : ℕ) : Prop :=
  ¬ videoDuration * (9 / 10) ≤ wTarget fps idx ∧
    wChoice frames fps idx = wChoice frames fps (idx - 1) ∧
    1 < frames.length ∧ 0 < idx

instance (frames : List WFrame) (videoDuration fps : ℚ) (idx : ℕ) :
    Decidable (wSkip frames videoDuration fps idx) := by
  unfold wSkip; infer_instance

/-- Whether the main loop submits a frame at output index `idx`: the slot is
not a suppressed duplicate and the selected frame has a bitmap. -/
def wSubmits (frames : List WFrame) (videoDuration fps : ℚ) (idx : ℕ) : Bool :=
  bitmapAt frames (wChoice frames fps idx) &&
    ! decide (wSkip frames videoDuration fps idx)

/-- The submissions made by the second pass of `encodeVideo` for a list of
never-chosen input frame indices, starting at output index `n`: each frame
is submitted at the then-current output index with timestamp
`Math.round(outputFrameIndex * microSecondsPerFrame)`, and the index
advances per appended frame. -/
def appendTail (fps : ℚ) : ℕ → List ℕ → List Submission
  | _, [] => []
  | n, i :: rest =>
    ⟨n, jsRound ((n : ℚ) * microPerFrame fps), i⟩ :: appendTail fps (n + 1) rest

/-- Constant `VIDEO_CONFIG.fps` (`video-converter.js` line 16). -/
def videoConfigFps : ℚ := 30

/-- Constant `VIDEO_CONFIG.width` (`video-converter.js` line 13). -/
def videoConfigWidth : ℕ := 610

/-- Constant `VIDEO_CONFIG.height` (`video-converter.js` line 14). -/
def videoConfigHeight : ℕ := 1084

/-- Source `framesNeeded = Math.max(1, Math.ceil(timeRangeMs * VIDEO_CONFIG.fps / 1000))`
(`video-converter.js` line 366). -/
def framesNeeded (timeRangeMs : ℚ) : ℕ :=
  max 1 (Int.toNat ⌈timeRangeMs * videoConfigFps / 1000⌉)

/-- The target times of one batch of `processFrameQueue` (`video-converter.js`
lines 369-374): for `i` from `0` below `framesNeeded`,
`targetTime = startTime + i * 1000 / VIDEO_CONFIG.fps`, stopping at the
first target beyond `endTime` (the loop's `break`).  Arguments: remaining
loop iterations, current value of `i`. -/
def chunkTargetsAux (startTime endTime : ℚ) : ℕ → ℕ → List ℚ
  | 0, _ => []
  | n + 1, i =>
    let t := startTime + (i : ℚ) * 1000 / videoConfigFps
    if endTime < t then [] else t :: chunkTargetsAux startTime endTime n (i + 1)

/-- All target times emitted for one batch spanning `[startTime, endTime]`. -/
def chunkTargets (startTime endTime : ℚ) : List ℚ :=
  chunkTargetsAux startTime endTime (framesNeeded (endTime - startTime)) 0

/-- The microsecond timestamps submitted to `videoEncoder.encode` for one
batch: `processFrame` receives
`Math.round((targetTime - recordingStartTime) * 1000)` for each emitted
target (`video-converter.js` lines 382-386); the captured frame chosen by
`findClosestFrameByTime` only selects pixel content, never the timestamp,
and is non-null for a nonempty batch.  A batch is the sorted list of
captured-frame timestamps spliced from the queue; `startTime`/`endTime`
are its first and last entries (`video-converter.js` lines 352-353). -/
def chunkSubmissions (recordingStartTime : ℚ) (chunk : List ℚ) : List ℤ :=
  match chunk.head?, chunk.getLast? with
  | some s, some e =>
    (chunkTargets s e).map (fun t => jsRound ((t - recordingStartTime) * 1000))
  | _, _ => []

/-- All timestamps submitted over a full converter run processing the given
sequence of batches; `recordingStartTimeRef` is the first batch's
`startTime` (set when `totalFramesProcessedRef` is zero,
`video-converter.js` lines 357-359). -/
def converterRunSubmissions (chunks : List (List ℚ)) : List ℤ :=
  (chunks.map (chunkSubmissions ((chunks.flatten).headD 0))).flatten

/-- A pooled pixel buffer (`ImageData`): its dimensions plus an identity tag
distinguishing physical buffers. -/
structure PooledBuffer where
  width : ℕ
  height : ℕ
  tag : ℕ
deriving DecidableEq, Repr

/-- Source `getImageDataFromPool` (`video-converter.js` lines 139-148): locate the
first pooled buffer whose width and height both exactly equal the request
(`findIndex` over the pool) and remove it (`splice(index, 1)[0]`); `none`
tells the caller to allocate fresh. -/
def getImageDataFromPool : List PooledBuffer → ℕ → ℕ → Option PooledBuffer × List PooledBuffer
  | [], _, _ => (none, [])
  | b :: rest, w, h =>
    if b.width = w ∧ b.height = h then (some b, rest)
    else
      let r := getImageDataFromPool rest w h
      (r.1, b :: r.2)

/-- Source `returnImageDataToPool` (`video-converter.js` lines 151-158): push the
buffer back unless the pool already holds 20 buffers, in which case it is
dropped. -/
def returnImageDataToPool (pool : List PooledBuffer) (b : PooledBuffer) : List PooledBuffer :=
  if pool.length < 20 then pool ++ [b] else pool

/-- Outcome of the raced `videoEncoder.encode` call in `processFrame`. -/
inductive EncodeOutcome
  | success
  | encodeFailure
  | timeout
deriving DecidableEq, Repr

/-- The race of the encode promise against the 5-second timeout promise
(`video-converter.js` lines 295-303): a timeout rejects with
"Frame encoding timed out"; an encoder rejection carries its own error. -/
def raceEncode : EncodeOutcome → Except String Unit
  | .success => Except.ok ()
  | .encodeFailure => Except.error "Error during frame encoding"
  | .timeout => Except.error "Frame encoding timed out"

/-- Observable outcome of one `processFrame` call. -/
structure FrameResult where
  encodeCalled : Bool
  timeoutMs : ℕ
  frameDropped : Bool
  warningLogged : Bool
  frameClosed : Bool
  counterAfter : ℕ
  keyFrameFlag : Bool
  errorStateSet : Bool
  aborted : Bool
deriving DecidableEq, Repr

/-- Source `processFrame(frame, timestampMicros)` (`video-converter.js` lines
270-316).  Guards: a missing `frame.imageData`, encoder, or canvas context
returns early.  `drawOk = false` models `putImageData`/`VideoFrame`
construction throwing before the encode call (caught by the outer
`try/catch`, which only logs).  Otherwise the encode promise is raced
against a 5000 ms timeout; the `.catch` swallows any rejection with a
logged warning (dropping the frame), the `.finally` closes the
`VideoFrame`, and `totalFramesProcessedRef` is incremented afterwards in
every outcome.  No branch sets the processing-error state or rethrows. -/
def processFrame (frameValid encoderReady ctxOk drawOk : Bool)
    (totalFramesProcessed : ℕ) (outcome : EncodeOutcome) : FrameResult :=
  if frameValid = false ∨ encoderReady = false ∨ ctxOk = false then
    ⟨false, 5000, false, false, false, totalFramesProcessed, false, false, false⟩
  else if drawOk = false then
    ⟨false, 5000, false, false, false, totalFramesProcessed, false, false, false⟩
  else
    let keyFrame := decide (totalFramesProcessed = 0 ∨ totalFramesProcessed % 30 = 0)
    let dropped := match raceEncode outcome with
      | Except.ok _ => false
      | Except.error _ => true
    ⟨true, 5000, dropped, dropped, true, totalFramesProcessed + 1, keyFrame, false, false⟩

/-- State touched by `captureFrame` (`video-converter.js` lines 651-733):
the duplicate-guard timestamp `lastCaptureTimeRef`, the `ImageData` pool,
the capture queue (kept as the queued frame timestamps; pixel payloads
abstracted away), and a count of draw operations on the offscreen canvas. -/
structure CaptureState where
  lastCaptureTime : ℚ
  pool : List PooledBuffer
  queue : List ℚ
  drawCount : ℕ
deriving DecidableEq, Repr

/-- Source `captureFrame` at `currentTime = video.currentTime * 1000`: the
duplicate guard (line 663) returns before anything is drawn, taken from the
pool, or queued when the timestamp equals the previously accepted one;
otherwise the guard timestamp is updated, the masked region is drawn, a
buffer is taken from the pool (fresh allocation when `none`), and the frame
is appended to the queue.  `drawOk = false` models a caught drawing error:
the tick is skipped after the guard update. -/
def captureFrame (st : CaptureState) (currentTimeMs : ℚ) (drawOk : Bool) : CaptureState :=
  if st.lastCaptureTime = currentTimeMs then st
  else
    let st1 : CaptureState := { st with lastCaptureTime := currentTimeMs }
    if drawOk = false then st1
    else
      let acquired := getImageDataFromPool st1.pool videoConfigWidth videoConfigHeight
      { st1 with
          pool := acquired.2
          queue := st1.queue ++ [currentTimeMs]
          drawCount := st1.drawCount + 1 }

/-- A `VideoEncoder` configuration as passed to `configure`. -/
structure EncoderConfig where
  codec : String
  width : ℕ
  height : ℕ
  bitrate : ℕ
  framerate : Option ℕ
deriving DecidableEq, Repr

/-- The primary configuration of the converter's encoder initialization
(`video-converter.js` lines 201-207). -/
def primaryEncoderConfig : EncoderConfig :=
  ⟨"avc1.42001f", videoConfigWidth, videoConfigHeight, 2000000, some 30⟩

/-- The fallback configuration attempted when the first `configure` throws
(`video-converter.js` lines 233-238): same codec and dimensions, lower
bitrate, the optional `framerate` field removed. -/
def fallbackEncoderConfig : EncoderConfig :=
  ⟨"avc1.42001f", videoConfigWidth, videoConfigHeight, 1000000, none⟩

/-- Observable outcome of the converter's encoder initialization. -/
structure InitOutcome where
  configureAttempts : List EncoderConfig
  initialized : Bool
  errorSurfaced : Bool
deriving DecidableEq, Repr

/-- The converter's `initializeEncoder` (`video-converter.js` lines
176-249), with the runtime results of the two `configure` calls supplied as
booleans: when WebCodecs is missing it fails immediately; the primary
configuration is tried; on a throw, exactly one retry is made with the
fallback configuration, after which `encoderInitializedRef` is set; if the
fallback also throws, the outer catch sets the processing-error state and
rethrows. -/
def initEncoder (webCodecsAvailable firstConfigureOk fallbackConfigureOk : Bool) : InitOutcome :=
  if webCodecsAvailable = false then ⟨[], false, true⟩
  else if firstConfigureOk then ⟨[primaryEncoderConfig], true, false⟩
  else if fallbackConfigureOk then
    ⟨[primaryEncoderConfig, fallbackEncoderConfig], true, false⟩
  else ⟨[primaryEncoderConfig, fallbackEncoderConfig], false, true⟩

/-- A concrete capture stream: frames at 0, 40 and 150 milliseconds, all
carrying bitmaps; its recorded duration (last minus first timestamp) is
150 ms. -/
def exFrames : List WFrame := [⟨0, true⟩, ⟨40, true⟩, ⟨150, true⟩]

/-- A capture stream denser than the output rate: frames at 0, 5 and 10 ms
over a 10 ms duration; only the frame at 0 is chosen by the single output
slot, so the second pass appends the other two. -/
def exFramesDense : List WFrame := [⟨0, true⟩, ⟨5, true⟩, ⟨10, true⟩]

/-- The two batches of a converter run refuting strict monotonicity: a
first batch of five captured frames (the first chunk size is
`VIDEO_CONFIG.initialChunkSize = 5`) and a drain batch of one frame, with
strictly increasing capture timestamps after the 200 ms warm-up.  The last
target of the first batch (`201 + 100/3` ms) and the lone frame of the
second batch (`234.33349` ms) both round to 33333 µs past the recording
start. -/
def c1Chunks : List (List ℚ) :=
  [[201, 211, 221, 231, 23433343 / 100000], [23433349 / 100000]]

/-- A ~24 samples/sec capture of a 10-second source: 240 frames at
`k * 1000/24` milliseconds. -/
def c3Frames : List WFrame :=
  (List.range 240).map (fun k => ⟨(k : ℚ) * 1000 / 24, true⟩)

set_option maxRecDepth 100000

set_option maxHeartbeats 2000000

theorem slotCount_spec (videoDuration fps : ℚ) (hfps : 0 < fps) (n : ℕ) :
    n < slotCount videoDuration fps ↔
      (n : ℚ) * microPerFrame fps ≤ videoDuration * 1000 := by
  have h1 : n < slotCount videoDuration fps ↔ (n : ℚ) ≤ videoDuration * fps / 1000 := by
    unfold slotCount
    rw [Int.lt_toNat, Int.lt_add_one_iff, Int.le_floor]
    push_cast
    rfl
  rw [h1, le_div_iff₀ (by norm_num : (0 : ℚ) < 1000)]
  unfold microPerFrame
  rw [show (n : ℚ) * (1000000 / fps) = (n : ℚ) * 1000000 / fps by ring,
    div_le_iff₀ hfps]
  constructor
  · intro h
    nlinarith
  · intro h
    nlinarith

/-- Closed form of the main resampling pass after `n` iterations:
`outputFrameIndex` equals the iteration count, `lastProcessedInputFrame` is
the selection of the previous slot (also across skipped slots, since a slot
is only skipped when its selection repeats the previous one),
`processedFrameIndices` is the image of the selection function, and the
submissions are exactly the non-suppressed slots in index order. -/
theorem mainPass_spec_aux (frames : List WFrame) (videoDuration fps : ℚ) (n : ℕ) :
    (List.range n).foldl (fun st _ => stepSlot frames videoDuration fps st) initWState =
      ⟨n,
       if n = 0 then (-1 : ℤ) else (wChoice frames fps (n - 1) : ℤ),
       (Finset.range n).image (wChoice frames fps),
       ((List.range n).filter (fun i => wSubmits frames videoDuration fps i)).map
         (fun i => ⟨i, jsRound ((i : ℚ) * microPerFrame fps), wChoice frames fps i⟩)⟩ := by
  induction n with
  | zero => simp [initWState]
  | succ n ih =>
    rw [List.range_succ, List.foldl_append, ih]
    simp only [List.foldl_cons, List.foldl_nil, List.filter_append, List.map_append,
      List.filter_cons, List.filter_nil, List.map_nil]
    have hchoice : closestFrameIndex frames (wTarget fps n) = wChoice frames fps n := rfl
    rcases Nat.eq_zero_or_pos n with hn | hn
    · subst hn
      have hskip : ¬ wSkip frames videoDuration fps 0 := fun h => absurd h.2.2.2 (by omega)
      cases hbv : bitmapAt frames (wChoice frames fps 0) with
      | false =>
        have hsub : wSubmits frames videoDuration fps 0 = false := by
          simp [wSubmits, hbv]
        simp [stepSlot, hchoice, hbv, hsub, Finset.range_one]
      | true =>
        have hsub : wSubmits frames videoDuration fps 0 = true := by
          simp [wSubmits, hbv, hskip]
        simp [stepSlot, hchoice, hbv, hsub, Finset.range_one]
    · have hlast : (if n = 0 then (-1 : ℤ) else (wChoice frames fps (n - 1) : ℤ)) =
          (wChoice frames fps (n - 1) : ℤ) := by
        rw [if_neg (by omega)]
      have hne : ¬ n + 1 = 0 := by omega
      have hsucc : n + 1 - 1 = n := by omega
      by_cases hsk : wSkip frames videoDuration fps n
      · have hcond : ¬ videoDuration * (9 / 10) ≤ wTarget fps n ∧
            ((wChoice frames fps n : ℤ) = (wChoice frames fps (n - 1) : ℤ)) ∧
            1 < frames.length ∧ 0 < n :=
          ⟨hsk.1, by exact_mod_cast hsk.2.1, hsk.2.2.1, hsk.2.2.2⟩
        have hsub : wSubmits frames videoDuration fps n = false := by
          simp [wSubmits, hsk]
        simp only [stepSlot, hchoice, hlast, hsub]
        rw [if_pos hcond]
        simp [WState.mk.injEq, Finset.range_succ, Finset.image_insert, hsk.2.1,
          hne, hsucc]
      · have hcond : ¬ (¬ videoDuration * (9 / 10) ≤ wTarget fps n ∧
            ((wChoice frames fps n : ℤ) = (wChoice frames fps (n - 1) : ℤ)) ∧
            1 < frames.length ∧ 0 < n) := by
          intro h
          exact hsk ⟨h.1, by exact_mod_cast h.2.1, h.2.2.1, h.2.2.2⟩
        cases hbv : bitmapAt frames (wChoice frames fps n) with
        | false =>
          have hsub : wSubmits frames videoDuration fps n = false := by
            simp [wSubmits, hbv]
          simp only [stepSlot, hchoice, hlast, hsub]
          rw [if_neg hcond]
          simp [hbv, WState.mk.injEq, Finset.range_succ, Finset.image_insert, hne, hsucc]
        | true =>
          have hsub : wSubmits frames videoDuration fps n = true := by
            simp [wSubmits, hbv, hsk]
          simp only [stepSlot, hchoice, hlast, hsub]
          rw [if_neg hcond]
          simp [hbv, WState.mk.injEq, Finset.range_succ, Finset.image_insert, hne, hsucc]

/-- Closed form of the main resampling pass of `encodeVideo`. -/
theorem encodeMainPass_spec (frames : List WFrame) (videoDuration fps : ℚ) :
    encodeMainPass frames videoDuration fps =
      ⟨slotCount videoDuration fps,
       if slotCount videoDuration fps = 0 then (-1 : ℤ)
       else (wChoice frames fps (slotCount videoDuration fps - 1) : ℤ),
       (Finset.range (slotCount videoDuration fps)).image (wChoice frames fps),
       ((List.range (slotCount videoDuration fps)).filter
           (fun i => wSubmits frames videoDuration fps i)).map
         (fun i => ⟨i, jsRound ((i : ℚ) * microPerFrame fps), wChoice frames fps i⟩)⟩ :=
  mainPass_spec_aux frames videoDuration fps (slotCount videoDuration fps)

theorem appendTail_outIdx_ge (fps : ℚ) :
    ∀ (l : List ℕ) (n : ℕ) (s : Submission), s ∈ appendTail fps n l → n ≤ s.outIdx := by
  intro l
  induction l with
  | nil => intro n s hs; simp [appendTail] at hs
  | cons i rest ih =>
    intro n s hs
    rcases (List.mem_cons).mp hs with h | h
    · subst h; exact le_refl _
    · exact le_trans (Nat.le_succ n) (ih (n + 1) s h)

/-- Closed form of the second pass of `encodeVideo` over an index list all
of whose frames carry bitmaps: the never-chosen indices are appended, in
order, at consecutive output indices; the chosen set and the previous
submissions are untouched. -/
theorem tailPass_foldl_spec (frames : List WFrame) (fps : ℚ)
    (hbm : ∀ f ∈ frames, f.bitmap = true) :
    ∀ (l : List ℕ) (st : WState), (∀ i ∈ l, i < frames.length) →
      l.foldl (tailStep frames fps) st =
        ⟨st.outIdx + (l.filter (fun i => decide (i ∉ st.processedIdx))).length,
         st.lastProcessed, st.processedIdx,
         st.outSubs ++
           appendTail fps st.outIdx (l.filter (fun i => decide (i ∉ st.processedIdx)))⟩ := by
  intro l
  induction l with
  | nil => intro st _; simp [appendTail]
  | cons i rest ih =>
    intro st hlt
    have hi : i < frames.length := hlt i (List.mem_cons_self i rest)
    have hbi : bitmapAt frames i = true := by
      unfold bitmapAt
      rcases List.get?_eq_get hi with h
      rw [h]
      exact hbm _ (List.get_mem frames _ _)
    rw [List.foldl_cons]
    by_cases hmem : i ∈ st.processedIdx
    · have hstep : tailStep frames fps st i = st := by
        unfold tailStep
        rw [if_neg (by simpa using hmem)]
      rw [hstep, ih st (fun j hj => hlt j (List.mem_cons_of_mem i hj))]
      simp [List.filter_cons, hmem]
    · have hstep : tailStep frames fps st i =
          { st with
              outSubs := st.outSubs ++
                [⟨st.outIdx, jsRound ((st.outIdx : ℚ) * microPerFrame fps), i⟩],
              outIdx := st.outIdx + 1 } := by
        unfold tailStep
        rw [if_pos (by simpa using hmem), if_pos hbi]
      rw [hstep, ih _ (fun j hj => hlt j (List.mem_cons_of_mem i hj))]
      simp [List.filter_cons, hmem, appendTail, List.append_assoc, WState.mk.injEq]
      omega

/-- The second pass only ever appends submissions, all of them at output
indices at least the current one (no bitmap assumption needed). -/
theorem tailPass_outSubs_extend (frames : List WFrame) (fps : ℚ) :
    ∀ (l : List ℕ) (st : WState), ∃ tl : List Submission,
      (l.foldl (tailStep frames fps) st).outSubs = st.outSubs ++ tl ∧
      ∀ s ∈ tl, st.outIdx ≤ s.outIdx := by
  intro l
  induction l with
  | nil => intro st; exact ⟨[], by simp, by simp⟩
  | cons i rest ih =>
    intro st
    rw [List.foldl_cons]
    by_cases hmem : i ∉ st.processedIdx
    · cases hbv : bitmapAt frames i with
      | false =>
        have hstep : tailStep frames fps st i = st := by
          unfold tailStep
          rw [if_pos hmem, if_neg (by simp [hbv])]
        rw [hstep]
        exact ih st
      | true =>
        have hstep : tailStep frames fps st i =
            { st with
                outSubs := st.outSubs ++
                  [⟨st.outIdx, jsRound ((st.outIdx : ℚ) * microPerFrame fps), i⟩],
                outIdx := st.outIdx + 1 } := by
          unfold tailStep
          rw [if_pos hmem, if_pos hbv]
        rw [hstep]
        obtain ⟨tl, htl, hge⟩ := ih
          { st with
              outSubs := st.outSubs ++
                [⟨st.outIdx, jsRound ((st.outIdx : ℚ) * microPerFrame fps), i⟩],
              outIdx := st.outIdx + 1 }
        refine ⟨⟨st.outIdx, jsRound ((st.outIdx : ℚ) * microPerFrame fps), i⟩ :: tl, ?_, ?_⟩
        · rw [htl]
          simp
        · intro s hs
          rcases (List.mem_cons).mp hs with h | h
          · subst h; exact le_refl _
          · exact le_trans (Nat.le_succ _) (hge s h)
    · have hstep : tailStep frames fps st i = st := by
        unfold tailStep
        rw [if_neg hmem]
      rw [hstep]
      exact ih st

theorem jsRound_mono {a b : ℚ} (h : a ≤ b) : jsRound a ≤ jsRound b :=
  Int.floor_le_floor (by linarith)

theorem jsRound_lt {a b : ℚ} (h : a + 1 ≤ b) : jsRound a < jsRound b := by
  unfold jsRound
  calc ⌊a + 1 / 2⌋ < ⌊a + 1 / 2⌋ + 1 := lt_add_one _
    _ = ⌊a + 1 / 2 + 1⌋ := (Int.floor_add_one (a + 1 / 2)).symm
    _ ≤ ⌊b + 1 / 2⌋ := Int.floor_le_floor (by linarith)

/-- The final output index visited by the main loop of `encodeVideo` has a
target time within one output-frame interval of `videoDuration`: the loop
condition admits `slotCount - 1` but not `slotCount`. -/
theorem lastSlot_close (videoDuration fps : ℚ) (hfps : 0 < fps) (hD : 0 ≤ videoDuration) :
    0 < slotCount videoDuration fps ∧
    ((slotCount videoDuration fps - 1 : ℕ) : ℚ) * microPerFrame fps ≤ videoDuration * 1000 ∧
    videoDuration * 1000 - ((slotCount videoDuration fps - 1 : ℕ) : ℚ) * microPerFrame fps <
      microPerFrame fps := by
  have hpos : 0 < slotCount videoDuration fps := by
    unfold slotCount
    have hfl : (0 : ℤ) ≤ ⌊videoDuration * fps / 1000⌋ := by
      apply Int.floor_nonneg.mpr
      positivity
    omega
  have hmem : slotCount videoDuration fps - 1 < slotCount videoDuration fps := by omega
  have hle := (slotCount_spec videoDuration fps hfps _).mp hmem
  refine ⟨hpos, hle, ?_⟩
  have hnot : ¬ ((slotCount videoDuration fps : ℚ) * microPerFrame fps ≤ videoDuration * 1000) :=
    fun hc => absurd ((slotCount_spec videoDuration fps hfps _).mpr hc) (lt_irrefl _)
  push_neg at hnot
  have hone : slotCount videoDuration fps - 1 + 1 = slotCount videoDuration fps := by omega
  have hcast : ((slotCount videoDuration fps - 1 : ℕ) : ℚ) + 1 =
      (slotCount videoDuration fps : ℚ) := by
    exact_mod_cast congrArg (fun k : ℕ => (k : ℚ)) hone
  nlinarith [hnot, hcast]

theorem chunkTargetsAux_head (s e : ℚ) (n i : ℕ) (t : ℚ) (l : List ℚ)
    (h : chunkTargetsAux s e n i = t :: l) :
    t = s + (i : ℚ) * 1000 / videoConfigFps ∧ t ≤ e := by
  cases n with
  | zero => simp [chunkTargetsAux] at h
  | succ n =>
    simp only [chunkTargetsAux] at h
    by_cases hc : e < s + (i : ℚ) * 1000 / videoConfigFps
    · rw [if_pos hc] at h; exact absurd h (by simp)
    · rw [if_neg hc] at h
      have := (List.cons.injEq _ _ _ _).mp h
      exact ⟨this.1.symm, this.1 ▸ le_of_not_lt hc⟩

theorem chunkTargetsAux_eq_nil (s e : ℚ) (n i : ℕ)
    (h : chunkTargetsAux s e (n + 1) i = []) :
    e < s + (i : ℚ) * 1000 / videoConfigFps := by
  simp only [chunkTargetsAux] at h
  by_cases hc : e < s + (i : ℚ) * 1000 / videoConfigFps
  · exact hc
  · rw [if_neg hc] at h; exact absurd h (by simp)

theorem chunkTargetsAux_mem (s e : ℚ) :
    ∀ (n i : ℕ) (t : ℚ), t ∈ chunkTargetsAux s e n i →
      (∃ j : ℕ, i ≤ j ∧ t = s + (j : ℚ) * 1000 / videoConfigFps) ∧ t ≤ e := by
  intro n
  induction n with
  | zero => intro i t h; simp [chunkTargetsAux] at h
  | succ n ih =>
    intro i t h
    simp only [chunkTargetsAux] at h
    by_cases hc : e < s + (i : ℚ) * 1000 / videoConfigFps
    · rw [if_pos hc] at h; simp at h
    · rw [if_neg hc] at h
      rcases List.mem_cons.mp h with h | h
      · exact ⟨⟨i, le_refl i, h⟩, h ▸ le_of_not_lt hc⟩
      · obtain ⟨⟨j, hij, hj⟩, hte⟩ := ih (i + 1) t h
        exact ⟨⟨j, by omega, hj⟩, hte⟩

theorem chunkTargetsAux_chain (s e : ℚ) :
    ∀ (n i : ℕ), List.Chain' (fun a b => b = a + 1000 / videoConfigFps)
      (chunkTargetsAux s e n i) := by
  intro n
  induction n with
  | zero => intro i; simp [chunkTargetsAux]
  | succ n ih =>
    intro i
    simp only [chunkTargetsAux]
    by_cases hc : e < s + (i : ℚ) * 1000 / videoConfigFps
    · rw [if_pos hc]; simp
    · rw [if_neg hc]
      cases hrec : chunkTargetsAux s e n (i + 1) with
      | nil => simp
      | cons t2 l2 =>
        rw [List.chain'_cons]
        have hh := chunkTargetsAux_head s e n (i + 1) t2 l2 hrec
        constructor
        · rw [hh.1]; push_cast; ring
        · exact hrec ▸ ih (i + 1)

theorem chunkTargetsAux_getLast (s e : ℚ) :
    ∀ (n i : ℕ) (t : ℚ), (chunkTargetsAux s e n i).getLast? = some t →
      ∃ j : ℕ, i ≤ j ∧ t = s + (j : ℚ) * 1000 / videoConfigFps ∧ t ≤ e ∧
        (j + 1 = i + n ∨ e < s + ((j : ℚ) + 1) * 1000 / videoConfigFps) := by
  intro n
  induction n with
  | zero => intro i t h; simp [chunkTargetsAux] at h
  | succ n ih =>
    intro i t h
    simp only [chunkTargetsAux] at h
    by_cases hc : e < s + (i : ℚ) * 1000 / videoConfigFps
    · rw [if_pos hc] at h; simp at h
    · rw [if_neg hc] at h
      cases hrec : chunkTargetsAux s e n (i + 1) with
      | nil =>
        rw [hrec] at h
        simp only [List.getLast?_singleton, Option.some.injEq] at h
        refine ⟨i, le_refl i, h.symm, h ▸ le_of_not_lt hc, ?_⟩
        cases n with
        | zero => left; omega
        | succ m =>
          right
          have hnil := chunkTargetsAux_eq_nil s e m (i + 1) hrec
          push_cast at hnil ⊢
          linarith
      | cons t2 l2 =>
        rw [hrec, List.getLast?_cons_cons, ← hrec] at h
        obtain ⟨j, hij, hj, hte, hd⟩ := ih (i + 1) t h
        refine ⟨j, by omega, hj, hte, ?_⟩
        rcases hd with hd | hd
        · left; omega
        · right; exact hd

theorem chunkTargets_head (s e : ℚ) (hse : s ≤ e) :
    ∃ l, chunkTargets s e = s :: l := by
  unfold chunkTargets
  obtain ⟨m, hm⟩ : ∃ m, framesNeeded (e - s) = m + 1 := by
    have h1 : 1 ≤ framesNeeded (e - s) := le_max_left _ _
    exact ⟨framesNeeded (e - s) - 1, by omega⟩
  rw [hm]
  simp only [chunkTargetsAux]
  have h0 : s + ((0 : ℕ) : ℚ) * 1000 / videoConfigFps = s := by push_cast; ring
  rw [if_neg (by rw [h0]; exact not_lt.mpr hse), h0]
  exact ⟨_, rfl⟩

theorem framesNeeded_ge (d : ℚ) (hd : 0 ≤ d) :
    d * videoConfigFps / 1000 ≤ (framesNeeded d : ℚ) := by
  unfold framesNeeded
  have hnn : (0 : ℤ) ≤ ⌈d * videoConfigFps / 1000⌉ := by
    apply Int.ceil_nonneg
    unfold videoConfigFps
    positivity
  have h2 : d * videoConfigFps / 1000 ≤ ((⌈d * videoConfigFps / 1000⌉).toNat : ℚ) := by
    have h3 := Int.le_ceil (d * videoConfigFps / 1000)
    rw [← Int.toNat_of_nonneg hnn] at h3
    exact_mod_cast h3
  calc d * videoConfigFps / 1000 ≤ ((⌈d * videoConfigFps / 1000⌉).toNat : ℚ) := h2
    _ ≤ ((max 1 (⌈d * videoConfigFps / 1000⌉).toNat : ℕ) : ℚ) := by
        exact_mod_cast Nat.le_max_right 1 _

/-- Coverage of one batch: the last emitted target time lies within one
output-frame interval (`1000 / fps` milliseconds) of the batch's end
timestamp. -/
theorem chunkTargets_last_close (s e : ℚ) (hse : s ≤ e) :
    ∃ t, (chunkTargets s e).getLast? = some t ∧ t ≤ e ∧
      e - t ≤ 1000 / videoConfigFps := by
  obtain ⟨l, hl⟩ := chunkTargets_head s e hse
  have hne : chunkTargets s e ≠ [] := by rw [hl]; simp
  obtain ⟨t, ht⟩ := Option.isSome_iff_exists.mp (List.getLast?_isSome.mpr hne)
  obtain ⟨j, hij, hj, hte, hd⟩ := chunkTargetsAux_getLast s e _ 0 t ht
  refine ⟨t, ht, hte, ?_⟩
  have hfpspos : (0 : ℚ) < videoConfigFps := by unfold videoConfigFps; norm_num
  rcases hd with hd | hd
  · have hfn := framesNeeded_ge (e - s) (by linarith)
    have hcast : ((j : ℚ) + 1) = ((framesNeeded (e - s) : ℕ) : ℚ) := by
      exact_mod_cast congrArg (fun k : ℕ => (k : ℚ)) (by omega : j + 1 = framesNeeded (e - s))
    have hj1 : (e - s) * videoConfigFps / 1000 ≤ (j : ℚ) + 1 := by
      rw [hcast]; exact hfn
    rw [hj]
    unfold videoConfigFps at *
    nlinarith
  · rw [hj]
    unfold videoConfigFps at hd ⊢
    nlinarith [hd]

theorem chunkSubmissions_eq (rs : ℚ) (c : List ℚ) (s e : ℚ)
    (hh : c.head? = some s) (hg : c.getLast? = some e) :
    chunkSubmissions rs c =
      (chunkTargets s e).map (fun t => jsRound ((t - rs) * 1000)) := by
  unfold chunkSubmissions
  rw [hh, hg]

theorem chunkSubmissions_chain_lt (rs : ℚ) (c : List ℚ) :
    List.Chain' (· < ·) (chunkSubmissions rs c) := by
  cases c with
  | nil => simp [chunkSubmissions]
  | cons a l =>
    obtain ⟨e, hg⟩ := Option.isSome_iff_exists.mp
      (List.getLast?_isSome.mpr (by simp : (a :: l) ≠ []))
    rw [chunkSubmissions_eq rs (a :: l) a e rfl hg]
    rw [List.chain'_map]
    apply (chunkTargetsAux_chain a e _ 0).imp
    intro x y hxy
    apply jsRound_lt
    rw [hxy]
    have hstep : (x + 1000 / videoConfigFps - rs) * 1000 =
        (x - rs) * 1000 + 100000 / 3 := by
      unfold videoConfigFps
      ring
    rw [hstep]
    linarith

theorem chunkSubmissions_head (rs : ℚ) (c : List ℚ) (s e : ℚ)
    (hh : c.head? = some s) (hg : c.getLast? = some e) (hse : s ≤ e) :
    (chunkSubmissions rs c).head? = some (jsRound ((s - rs) * 1000)) := by
  rw [chunkSubmissions_eq rs c s e hh hg]
  obtain ⟨l, hl⟩ := chunkTargets_head s e hse
  rw [hl]
  rfl

theorem chunkSubmissions_mem_le (rs : ℚ) (c : List ℚ) (s e : ℚ)
    (hh : c.head? = some s) (hg : c.getLast? = some e) :
    ∀ x ∈ chunkSubmissions rs c, x ≤ jsRound ((e - rs) * 1000) := by
  rw [chunkSubmissions_eq rs c s e hh hg]
  intro x hx
  obtain ⟨t, htmem, hteq⟩ := List.mem_map.mp hx
  obtain ⟨⟨j, hij, hj⟩, hte⟩ := chunkTargetsAux_mem s e _ 0 t htmem
  exact hteq ▸ jsRound_mono (by nlinarith)

theorem head_le_getLast_of_chain_lt :
    ∀ (c : List ℚ) (s e : ℚ), c.head? = some s → c.getLast? = some e →
      List.Chain' (· < ·) c → s ≤ e := by
  intro c
  induction c with
  | nil => intro s e hh _ _; simp at hh
  | cons a l ih =>
    intro s e hh hg hc
    have hs : s = a := by
      simp only [List.head?_cons, Option.some.injEq] at hh
      exact hh.symm
    subst hs
    cases l with
    | nil =>
      rw [List.getLast?_singleton] at hg
      simp only [Option.some.injEq] at hg
      linarith [hg.le]
    | cons b l2 =>
      rw [List.getLast?_cons_cons] at hg
      have hab := (List.chain'_cons.mp hc).1
      have hbe : b ≤ e := ih b e rfl hg (List.chain'_cons.mp hc).2
      linarith

/-- Over a full converter run whose batches are nonempty and whose captured
timestamps are strictly increasing, the submitted microsecond timestamps are
non-decreasing. -/
theorem converterRun_chain_le_aux (rs : ℚ) :
    ∀ (chunks : List (List ℚ)), (∀ c ∈ chunks, c ≠ []) →
      List.Chain' (· < ·) chunks.flatten →
      List.Chain' (· ≤ ·) ((chunks.map (chunkSubmissions rs)).flatten) := by
  intro chunks
  induction chunks with
  | nil => intro _ _; simp
  | cons c rest ih =>
    intro hne hmono
    simp only [List.map_cons, List.flatten_cons]
    rw [List.flatten_cons] at hmono
    obtain ⟨hc, hrest, hbd⟩ := List.chain'_append.mp hmono
    rw [List.chain'_append]
    refine ⟨(chunkSubmissions_chain_lt rs c).imp (fun a b => le_of_lt),
      ih (fun x hx => hne x (List.mem_cons_of_mem _ hx)) hrest, ?_⟩
    intro x hx y hy
    cases rest with
    | nil => simp at hy
    | cons c2 rest2 =>
      simp only [List.map_cons, List.flatten_cons] at hy
      have hc2ne : c2 ≠ [] := hne c2 (by simp)
      obtain ⟨s2, hh2⟩ : ∃ s2, c2.head? = some s2 := by
        cases c2 with
        | nil => exact absurd rfl hc2ne
        | cons a2 l2 => exact ⟨a2, rfl⟩
      obtain ⟨e2, hg2⟩ := Option.isSome_iff_exists.mp (List.getLast?_isSome.mpr hc2ne)
      have hc2chain : List.Chain' (· < ·) c2 := by
        rw [List.flatten_cons] at hrest
        exact (List.chain'_append.mp hrest).1
      have hs2e2 := head_le_getLast_of_chain_lt c2 s2 e2 hh2 hg2 hc2chain
      have hhead := chunkSubmissions_head rs c2 s2 e2 hh2 hg2 hs2e2
      rw [List.head?_append, hhead] at hy
      have hy2 : y = jsRound ((s2 - rs) * 1000) := by
        rw [Option.mem_def] at hy
        simp only [Option.or] at hy
        exact ((Option.some.injEq _ _).mp hy).symm
      have hcne : c ≠ [] := hne c (by simp)
      obtain ⟨s, hh⟩ : ∃ s, c.head? = some s := by
        cases c with
        | nil => exact absurd rfl hcne
        | cons a l => exact ⟨a, rfl⟩
      obtain ⟨e, hg⟩ := Option.isSome_iff_exists.mp (List.getLast?_isSome.mpr hcne)
      have hxle : x ≤ jsRound ((e - rs) * 1000) :=
        chunkSubmissions_mem_le rs c s e hh hg x (List.mem_of_mem_getLast? hx)
      have hes2 : e < s2 := by
        apply hbd e (by rw [Option.mem_def, hg]) s2
        rw [Option.mem_def, List.flatten_cons, List.head?_append, hh2]
        rfl
      calc x ≤ jsRound ((e - rs) * 1000) := hxle
        _ ≤ jsRound ((s2 - rs) * 1000) := jsRound_mono (by linarith)
        _ = y := hy2.symm

theorem getImageDataFromPool_isSome (pool : List PooledBuffer) (w h : ℕ) :
    (getImageDataFromPool pool w h).1.isSome = true ↔
      ∃ x ∈ pool, x.width = w ∧ x.height = h := by
  induction pool with
  | nil => simp [getImageDataFromPool]
  | cons b rest ih =>
    by_cases hb : b.width = w ∧ b.height = h
    · simp only [getImageDataFromPool, if_pos hb]
      simp only [Option.isSome_some, true_iff]
      exact ⟨b, List.mem_cons_self b rest, hb⟩
    · simp only [getImageDataFromPool, if_neg hb]
      rw [ih]
      constructor
      · rintro ⟨x, hx, hxw⟩
        exact ⟨x, List.mem_cons_of_mem b hx, hxw⟩
      · rintro ⟨x, hx, hxw⟩
        rcases List.mem_cons.mp hx with hx | hx
        · exact absurd (hx ▸ hxw) hb
        · exact ⟨x, hx, hxw⟩

theorem getImageDataFromPool_some :
    ∀ (pool : List PooledBuffer) (w h : ℕ) (x : PooledBuffer) (rest : List PooledBuffer),
      getImageDataFromPool pool w h = (some x, rest) →
      x.width = w ∧ x.height = h ∧ x ∈ pool ∧ List.Perm (x :: rest) pool := by
  intro pool
  induction pool with
  | nil =>
    intro w h x rest heq
    simp [getImageDataFromPool] at heq
  | cons b tl ih =>
    intro w h x rest heq
    by_cases hb : b.width = w ∧ b.height = h
    · simp only [getImageDataFromPool, if_pos hb, Prod.mk.injEq, Option.some.injEq] at heq
      obtain ⟨hbx, hrest⟩ := heq
      subst hbx
      subst hrest
      exact ⟨hb.1, hb.2, List.mem_cons_self b tl, List.Perm.refl _⟩
    · simp only [getImageDataFromPool, if_neg hb, Prod.mk.injEq] at heq
      obtain ⟨h1, h2⟩ := heq
      have heq2 : getImageDataFromPool tl w h = (some x, (getImageDataFromPool tl w h).2) := by
        rw [← h1]
      obtain ⟨hw, hh, hmem, hperm⟩ := ih w h x _ heq2
      refine ⟨hw, hh, List.mem_cons_of_mem b hmem, ?_⟩
      rw [← h2]
      exact List.Perm.trans (List.Perm.swap b x _) (List.Perm.cons b hperm)

theorem getImageDataFromPool_none :
    ∀ (pool : List PooledBuffer) (w h : ℕ),
      (getImageDataFromPool pool w h).1 = none →
      (getImageDataFromPool pool w h).2 = pool := by
  intro pool
  induction pool with
  | nil => intro w h _; rfl
  | cons b tl ih =>
    intro w h hnone
    by_cases hb : b.width = w ∧ b.height = h
    · simp [getImageDataFromPool, if_pos hb] at hnone
    · simp only [getImageDataFromPool, if_neg hb] at hnone ⊢
      rw [ih w h hnone]

theorem jsMaxValue_eq : jsMaxValue = (2 ^ 53 - 1) * 2 ^ 971 := by
  norm_num [jsMaxValue]

theorem slotCount_150_30 : slotCount 150 30 = 5 := by with_unfolding_all rfl

theorem slotCount_10000_30 : slotCount 10000 30 = 301 := by with_unfolding_all rfl

/-- C1 (counterexample): a reachable converter run — a first batch of five
frames then a one-frame drain batch, all capture timestamps strictly
increasing — submits the microsecond timestamps `[0, 33333, 33333]`: the
`Math.round` to whole microseconds collapses the last target of the first
batch and the first target of the second batch, so the sequence of
timestamps handed to `encode` is not strictly increasing across the chunk
boundary. -/
theorem C1_strict_monotonicity_counterexample :
    (∀ c ∈ c1Chunks, c ≠ []) ∧
    List.Chain' (· < ·) c1Chunks.flatten ∧
    converterRunSubmissions c1Chunks = [0, 33333, 33333] ∧
    ¬ List.Chain' (· < ·) (converterRunSubmissions c1Chunks) := by
  have hrun : converterRunSubmissions c1Chunks = [0, 33333, 33333] := by
    with_unfolding_all rfl
  refine ⟨?_, ?_, hrun, ?_⟩
  · intro c hc
    fin_cases hc <;> simp
  · norm_num [c1Chunks, List.chain'_cons]
  · rw [hrun]
    intro hchain
    have h2 := (List.chain'_cons.mp (List.chain'_cons.mp hchain).2).1
    exact absurd h2 (lt_irrefl _)

/-- C1 (amended): over any converter run whose batches are nonempty and
whose captured timestamps are strictly increasing, the sequence of
microsecond timestamps submitted to the encoder is non-decreasing across
the whole run, and strictly increasing within each batch; equal consecutive
timestamps can only arise at a chunk boundary through microsecond
rounding. -/
theorem C1_submissions_monotone (chunks : List (List ℚ))
    (hne : ∀ c ∈ chunks, c ≠ [])
    (hmono : List.Chain' (· < ·) chunks.flatten) :
    List.Chain' (· ≤ ·) (converterRunSubmissions chunks) ∧
    ∀ c ∈ chunks,
      List.Chain' (· < ·) (chunkSubmissions ((chunks.flatten).headD 0) c) := by
  constructor
  · exact converterRun_chain_le_aux _ chunks hne hmono
  · intro c _
    exact chunkSubmissions_chain_lt _ c

theorem C1_submissions_monotone_witness :
    List.Chain' (· ≤ ·) (converterRunSubmissions c1Chunks) ∧
    ∀ c ∈ c1Chunks,
      List.Chain' (· < ·) (chunkSubmissions ((c1Chunks.flatten).headD 0) c) :=
  C1_submissions_monotone c1Chunks
    (by intro c hc; fin_cases hc <;> simp)
    (by norm_num [c1Chunks, List.chain'_cons])

/-- C2: in the worker resampling pass, an output index `i > 0` whose
nearest-frame selection repeats the selection of index `i - 1` (with more
than one input frame) is skipped — nothing is submitted for that output
index — unless its target time lies in the final ~10% of the video
duration (`targetOutputTime >= videoDuration * 0.9`), in which case the
duplicate is encoded and emitted (given the selected frame's bitmap). -/
theorem C2_duplicate_suppression (frames : List WFrame) (videoDuration fps : ℚ) (i : ℕ)
    (hfps : 0 < fps) (hi : 0 < i) (hiN : i < slotCount videoDuration fps)
    (hdup : wChoice frames fps i = wChoice frames fps (i - 1))
    (hlen : 1 < frames.length) :
    (¬ videoDuration * (9 / 10) ≤ wTarget fps i →
      ∀ s ∈ (encodeVideoRun frames videoDuration fps).outSubs, s.outIdx ≠ i) ∧
    (videoDuration * (9 / 10) ≤ wTarget fps i →
      bitmapAt frames (wChoice frames fps i) = true →
      (⟨i, jsRound ((i : ℚ) * microPerFrame fps), wChoice frames fps i⟩ : Submission) ∈
        (encodeVideoRun frames videoDuration fps).outSubs) := by
  have hmain := encodeMainPass_spec frames videoDuration fps
  have houts : (encodeMainPass frames videoDuration fps).outSubs =
      ((List.range (slotCount videoDuration fps)).filter
        (fun k => wSubmits frames videoDuration fps k)).map
        (fun k => ⟨k, jsRound ((k : ℚ) * microPerFrame fps), wChoice frames fps k⟩) := by
    rw [hmain]
  have hidx : (encodeMainPass frames videoDuration fps).outIdx =
      slotCount videoDuration fps := by
    rw [hmain]
  obtain ⟨tl, htl, hge⟩ := tailPass_outSubs_extend frames fps (List.range frames.length)
    (encodeMainPass frames videoDuration fps)
  have hrun : (encodeVideoRun frames videoDuration fps).outSubs =
      (encodeMainPass frames videoDuration fps).outSubs ++ tl := htl
  constructor
  · intro hnear s hs hEq
    rw [hrun] at hs
    rcases List.mem_append.mp hs with hm | hm
    · rw [houts] at hm
      obtain ⟨j, hjmem, hjeq⟩ := List.mem_map.mp hm
      subst hjeq
      have hj : j = i := hEq
      subst hj
      have hsub := (List.mem_filter.mp hjmem).2
      have hskipP : wSkip frames videoDuration fps j := ⟨hnear, hdup, hlen, hi⟩
      unfold wSubmits at hsub
      rw [decide_eq_true hskipP] at hsub
      simp at hsub
    · have hgeS := hge s hm
      rw [hidx] at hgeS
      omega
  · intro hnear hbm
    have hmem : (⟨i, jsRound ((i : ℚ) * microPerFrame fps), wChoice frames fps i⟩ :
        Submission) ∈ (encodeMainPass frames videoDuration fps).outSubs := by
      rw [houts]
      apply List.mem_map.mpr
      refine ⟨i, List.mem_filter.mpr ⟨List.mem_range.mpr hiN, ?_⟩, rfl⟩
      unfold wSubmits
      rw [hbm]
      have hnsk : ¬ wSkip frames videoDuration fps i := fun hsk => hsk.1 hnear
      simp [hnsk]
    rw [hrun]
    exact List.mem_append_left tl hmem

theorem wChoice_exFrames_1 : wChoice exFrames 30 1 = 1 := by with_unfolding_all rfl

theorem wChoice_exFrames_2 : wChoice exFrames 30 2 = 1 := by with_unfolding_all rfl

theorem C2_duplicate_suppression_witness :
    (¬ (150 : ℚ) * (9 / 10) ≤ wTarget 30 2 →
      ∀ s ∈ (encodeVideoRun exFrames 150 30).outSubs, s.outIdx ≠ 2) ∧
    ((150 : ℚ) * (9 / 10) ≤ wTarget 30 2 →
      bitmapAt exFrames (wChoice exFrames 30 2) = true →
      (⟨2, jsRound ((2 : ℚ) * microPerFrame 30), wChoice exFrames 30 2⟩ : Submission) ∈
        (encodeVideoRun exFrames 150 30).outSubs) :=
  C2_duplicate_suppression exFrames 150 30 2 (by norm_num) (by norm_num)
    (by rw [slotCount_150_30]; norm_num)
    (by rw [wChoice_exFrames_2, wChoice_exFrames_1])
    (by norm_num [exFrames])

/-- C3 (counterexample): for a 10-second source (10000 ms) at 30 fps
output, the main loop's condition
`outputFrameIndex * microSecondsPerFrame <= videoDuration * 1000` is
inclusive, so index 300 (target exactly 10,000,000 µs) is still visited:
the pass over a ~24 samples/sec capture produces 301 output-indexed slots
(indices 0..300), not 300. -/
theorem C3_scenario_a_counterexample :
    slotCount 10000 30 = 301 ∧
    (encodeMainPass c3Frames 10000 30).outIdx = 301 ∧
    (300 : ℚ) * microPerFrame 30 ≤ 10000 * 1000 ∧
    ¬ slotCount 10000 30 = 300 := by
  refine ⟨slotCount_10000_30, ?_, ?_, ?_⟩
  · rw [encodeMainPass_spec]
    exact slotCount_10000_30
  · norm_num [microPerFrame]
  · rw [slotCount_10000_30]
    norm_num

/-- C3 (amended): the 10-second, 30 fps pass produces exactly 301
output-indexed slots (indices 0 through 300); the rounded target times
`Math.round(index * 1000000/30)` begin 0, 33333, 66667 µs and are strictly
increasing in the output index. -/
theorem C3_scenario_a_slots (i j : ℕ) (hij : i < j) :
    slotCount 10000 30 = 301 ∧
    (encodeMainPass c3Frames 10000 30).outIdx = 301 ∧
    jsRound ((0 : ℚ) * microPerFrame 30) = 0 ∧
    jsRound ((1 : ℚ) * microPerFrame 30) = 33333 ∧
    jsRound ((2 : ℚ) * microPerFrame 30) = 66667 ∧
    jsRound ((i : ℚ) * microPerFrame 30) < jsRound ((j : ℚ) * microPerFrame 30) := by
  refine ⟨slotCount_10000_30, ?_, ?_, ?_, ?_, ?_⟩
  · rw [encodeMainPass_spec]
    exact slotCount_10000_30
  · norm_num [jsRound, microPerFrame]
  · norm_num [jsRound, microPerFrame]
  · norm_num [jsRound, microPerFrame]
  · apply jsRound_lt
    have hcast : (i : ℚ) + 1 ≤ (j : ℚ) := by exact_mod_cast hij
    have hfrm : microPerFrame 30 = 1000000 / 30 := rfl
    nlinarith [hcast]

theorem C3_scenario_a_slots_witness :
    slotCount 10000 30 = 301 ∧
    (encodeMainPass c3Frames 10000 30).outIdx = 301 ∧
    jsRound ((0 : ℚ) * microPerFrame 30) = 0 ∧
    jsRound ((1 : ℚ) * microPerFrame 30) = 33333 ∧
    jsRound ((2 : ℚ) * microPerFrame 30) = 66667 ∧
    jsRound ((3 : ℕ) * microPerFrame 30) < jsRound ((4 : ℕ) * microPerFrame 30) :=
  C3_scenario_a_slots 3 4 (by norm_num)

/-- C4: after the main resampling pass, the submissions of a complete
worker run are exactly the main pass's submissions followed by one
appended submission per input frame never chosen by nearest-timestamp
selection, in input order, at consecutive output indices starting from the
pass's final output index — no captured frame is silently dropped. -/
theorem C4_unchosen_frames_appended (frames : List WFrame) (videoDuration fps : ℚ)
    (hbm : ∀ f ∈ frames, f.bitmap = true) :
    (encodeVideoRun frames videoDuration fps).outSubs =
      (encodeMainPass frames videoDuration fps).outSubs ++
        appendTail fps (slotCount videoDuration fps)
          ((List.range frames.length).filter
            (fun i => decide (i ∉
              (Finset.range (slotCount videoDuration fps)).image (wChoice frames fps)))) := by
  have hmain := encodeMainPass_spec frames videoDuration fps
  have hidx : (encodeMainPass frames videoDuration fps).outIdx =
      slotCount videoDuration fps := by
    rw [hmain]
  have hproc : (encodeMainPass frames videoDuration fps).processedIdx =
      (Finset.range (slotCount videoDuration fps)).image (wChoice frames fps) := by
    rw [hmain]
  have hspec := tailPass_foldl_spec frames fps hbm (List.range frames.length)
    (encodeMainPass frames videoDuration fps) (fun i hi => List.mem_range.mp hi)
  have hrun : encodeVideoRun frames videoDuration fps =
      (List.range frames.length).foldl (tailStep frames fps)
        (encodeMainPass frames videoDuration fps) := rfl
  rw [hrun, hspec]
  rw [show (⟨(encodeMainPass frames videoDuration fps).outIdx +
        ((List.range frames.length).filter
          (fun i => decide (i ∉ (encodeMainPass frames videoDuration fps).processedIdx))).length,
      (encodeMainPass frames videoDuration fps).lastProcessed,
      (encodeMainPass frames videoDuration fps).processedIdx,
      (encodeMainPass frames videoDuration fps).outSubs ++
        appendTail fps (encodeMainPass frames videoDuration fps).outIdx
          ((List.range frames.length).filter
            (fun i => decide (i ∉ (encodeMainPass frames videoDuration fps).processedIdx)))⟩ :
        WState).outSubs =
      (encodeMainPass frames videoDuration fps).outSubs ++
        appendTail fps (encodeMainPass frames videoDuration fps).outIdx
          ((List.range frames.length).filter
            (fun i => decide (i ∉ (encodeMainPass frames videoDuration fps).processedIdx)))
    from rfl]
  rw [hidx, hproc]

theorem C4_unchosen_frames_appended_witness :
    (encodeVideoRun exFramesDense 10 30).outSubs =
      (encodeMainPass exFramesDense 10 30).outSubs ++
        appendTail 30 (slotCount 10 30)
          ((List.range exFramesDense.length).filter
            (fun i => decide (i ∉
              (Finset.range (slotCount 10 30)).image (wChoice exFramesDense 30)))) :=
  C4_unchosen_frames_appended exFramesDense 10 30 (by
    intro f hf
    fin_cases hf <;> rfl)

/-- C5: when the first `configure` succeeds only the primary configuration
is attempted; when it throws, exactly one retry is made with the fallback
configuration (lower bitrate, optional `framerate` field removed); when the
fallback succeeds the session is initialized without further intervention
and no error is surfaced; only when the fallback also throws does
initialization fail and surface an error. -/
theorem C5_configure_fallback (b2 : Bool) :
    (initEncoder true true b2).configureAttempts = [primaryEncoderConfig] ∧
    (initEncoder true true b2).initialized = true ∧
    (initEncoder true true b2).errorSurfaced = false ∧
    (initEncoder true false true).configureAttempts =
      [primaryEncoderConfig, fallbackEncoderConfig] ∧
    (initEncoder true false true).initialized = true ∧
    (initEncoder true false true).errorSurfaced = false ∧
    (initEncoder true false false).configureAttempts =
      [primaryEncoderConfig, fallbackEncoderConfig] ∧
    (initEncoder true false false).initialized = false ∧
    (initEncoder true false false).errorSurfaced = true ∧
    fallbackEncoderConfig.bitrate < primaryEncoderConfig.bitrate ∧
    fallbackEncoderConfig.framerate = none ∧
    primaryEncoderConfig.framerate = some 30 := by
  refine ⟨rfl, rfl, rfl, rfl, rfl, rfl, rfl, rfl, rfl, by norm_num [primaryEncoderConfig,
    fallbackEncoderConfig], rfl, rfl⟩

/-- C6: every encode submission in `processFrame` races a fixed 5000 ms
timeout; whatever the raced outcome (success, encoder error, or timeout),
the `VideoFrame` is closed, the processed-frame counter advances, and
neither the error state nor any abort is triggered — on an error or
timeout the frame is dropped with a logged warning and the pipeline simply
continues. -/
theorem C6_per_frame_failure_recoverable (counter : ℕ) (o : EncodeOutcome) :
    (processFrame true true true true counter o).timeoutMs = 5000 ∧
    (processFrame true true true true counter o).frameClosed = true ∧
    (processFrame true true true true counter o).errorStateSet = false ∧
    (processFrame true true true true counter o).aborted = false ∧
    (processFrame true true true true counter o).counterAfter = counter + 1 ∧
    (processFrame true true true true counter EncodeOutcome.encodeFailure).frameDropped = true ∧
    (processFrame true true true true counter EncodeOutcome.encodeFailure).warningLogged = true ∧
    (processFrame true true true true counter EncodeOutcome.timeout).frameDropped = true ∧
    (processFrame true true true true counter EncodeOutcome.timeout).warningLogged = true := by
  cases o <;> simp [processFrame, raceEncode]

/-- C7: `acquire` returns a pooled buffer exactly when the pool holds one
whose width and height both equal the request; the returned buffer is such
a match and is removed from the pool (the pool is the returned remainder
plus that buffer, as a permutation); on a miss the pool is unchanged and
the caller is told to allocate fresh; `release` appends the buffer unless
the pool has reached its 20-buffer ceiling, in which case it is dropped;
both operations are total. -/
theorem C7_pool_contract (pool : List PooledBuffer) (w h : ℕ) (b : PooledBuffer) :
    ((getImageDataFromPool pool w h).1.isSome = true ↔
      ∃ x ∈ pool, x.width = w ∧ x.height = h) ∧
    (∀ x rest, getImageDataFromPool pool w h = (some x, rest) →
      x.width = w ∧ x.height = h ∧ x ∈ pool ∧ List.Perm (x :: rest) pool) ∧
    ((getImageDataFromPool pool w h).1 = none →
      (getImageDataFromPool pool w h).2 = pool) ∧
    (pool.length < 20 → returnImageDataToPool pool b = pool ++ [b]) ∧
    (¬ pool.length < 20 → returnImageDataToPool pool b = pool) := by
  refine ⟨getImageDataFromPool_isSome pool w h,
    fun x rest heq => getImageDataFromPool_some pool w h x rest heq,
    getImageDataFromPool_none pool w h, ?_, ?_⟩
  · intro hlt
    unfold returnImageDataToPool
    rw [if_pos hlt]
  · intro hge
    unfold returnImageDataToPool
    rw [if_neg hge]

theorem C7_pool_contract_witness :
    ((⟨610, 1084, 7⟩ : PooledBuffer).width = 610 ∧
      (⟨610, 1084, 7⟩ : PooledBuffer).height = 1084 ∧
      (⟨610, 1084, 7⟩ : PooledBuffer) ∈ [(⟨610, 1084, 7⟩ : PooledBuffer)] ∧
      List.Perm [(⟨610, 1084, 7⟩ : PooledBuffer)] [(⟨610, 1084, 7⟩ : PooledBuffer)]) ∧
    returnImageDataToPool [] ⟨610, 1084, 7⟩ = [] ++ [⟨610, 1084, 7⟩] := by
  constructor
  · exact (C7_pool_contract [⟨610, 1084, 7⟩] 610 1084 ⟨610, 1084, 7⟩).2.1
      ⟨610, 1084, 7⟩ [] rfl
  · exact (C7_pool_contract [] 610 1084 ⟨610, 1084, 7⟩).2.2.2.1 (by norm_num)

/-- C9: a capture tick whose playback timestamp equals the previously
accepted sample's timestamp returns without capturing: the state is
unchanged — nothing is drawn, no buffer leaves the pool, and the capture
queue is untouched. -/
theorem C9_duplicate_tick_no_capture (st : CaptureState) (t : ℚ) (drawOk : Bool)
    (hdup : st.lastCaptureTime = t) :
    captureFrame st t drawOk = st ∧
    (captureFrame st t drawOk).queue = st.queue ∧
    (captureFrame st t drawOk).pool = st.pool ∧
    (captureFrame st t drawOk).drawCount = st.drawCount := by
  have h : captureFrame st t drawOk = st := by
    unfold captureFrame
    rw [if_pos hdup]
  exact ⟨h, by rw [h], by rw [h], by rw [h]⟩

theorem C9_duplicate_tick_no_capture_witness :
    captureFrame ⟨5, [], [], 0⟩ 5 true = ⟨5, [], [], 0⟩ ∧
    (captureFrame ⟨5, [], [], 0⟩ 5 true).queue = ([] : List ℚ) ∧
    (captureFrame ⟨5, [], [], 0⟩ 5 true).pool = ([] : List PooledBuffer) ∧
    (captureFrame ⟨5, [], [], 0⟩ 5 true).drawCount = 0 :=
  C9_duplicate_tick_no_capture ⟨5, [], [], 0⟩ 5 true rfl

/-- C10: for a valid frame with the encoder initialized, `processFrame`
increments the processed-frame counter after the submission attempt
whether the raced encode succeeded, failed, or timed out, and the key-frame
flag is computed from the pre-increment counter as
`counter == 0 || counter % 30 == 0` — so the cadence and the reported
total count attempted submissions, not successful encodes. -/
theorem C10_counter_counts_attempts (counter : ℕ) (o : EncodeOutcome) :
    (processFrame true true true true counter o).counterAfter = counter + 1 ∧
    (processFrame true true true true counter o).keyFrameFlag =
      decide (counter = 0 ∨ counter % 30 = 0) := by
  cases o <;> simp [processFrame, raceEncode]

/-- C8 (counterexample): for the completed worker run over the non-empty
capture stream `exFrames` (timestamps 0, 40, 150 ms; recorded duration
150 − 0 = 150 ms, passed as `videoDuration`), the final two slots (targets
100 ms and 133⅓ ms) both select the frame at 150 ms; slot 4 is suppressed
as a duplicate because 133⅓ < 0.9 · 150 = 135, every input frame was chosen
so the second pass appends nothing, and the last submitted frame's target
time is 100000 µs — a gap of 50000 µs to the 150000 µs duration, more than
one output-frame interval (33333⅓ µs). -/
theorem C8_coverage_counterexample :
    exFrames.map WFrame.timestamp = [0, 40, 150] ∧
    List.Chain' (· < ·) (exFrames.map WFrame.timestamp) ∧
    (encodeVideoRun exFrames 150 30).outSubs =
      [⟨0, 0, 0⟩, ⟨1, 33333, 1⟩, ⟨3, 100000, 2⟩] ∧
    ((encodeVideoRun exFrames 150 30).outSubs.map Submission.timestampMicros).getLast? =
      some 100000 ∧
    (150 : ℚ) * 1000 - 100000 > microPerFrame 30 := by
  have hrun : (encodeVideoRun exFrames 150 30).outSubs =
      [⟨0, 0, 0⟩, ⟨1, 33333, 1⟩, ⟨3, 100000, 2⟩] := by
    with_unfolding_all rfl
  refine ⟨rfl, ?_, hrun, ?_, ?_⟩
  · norm_num [exFrames, List.chain'_cons]
  · rw [hrun]
    rfl
  · norm_num [microPerFrame]

/-- C8 (amended): the final output index visited by the worker pass has a
target time within one output-frame interval of the recorded duration, and
on the converter path the last target emitted for each batch is within one
frame interval of that batch's final captured timestamp; the last frame the
worker actually submits, however, may trail the duration by more than one
interval when trailing duplicate slots outside the final-10% region are
suppressed (see the counterexample). -/
theorem C8_last_slot_coverage (videoDuration fps s e : ℚ)
    (hfps : 0 < fps) (hD : 0 ≤ videoDuration) (hse : s ≤ e) :
    (0 < slotCount videoDuration fps ∧
      ((slotCount videoDuration fps - 1 : ℕ) : ℚ) * microPerFrame fps ≤
        videoDuration * 1000 ∧
      videoDuration * 1000 -
        ((slotCount videoDuration fps - 1 : ℕ) : ℚ) * microPerFrame fps <
        microPerFrame fps) ∧
    (∃ t, (chunkTargets s e).getLast? = some t ∧ t ≤ e ∧
      e - t ≤ 1000 / videoConfigFps) :=
  ⟨lastSlot_close videoDuration fps hfps hD, chunkTargets_last_close s e hse⟩

theorem C8_last_slot_coverage_witness :
    (0 < slotCount 150 30 ∧
      ((slotCount 150 30 - 1 : ℕ) : ℚ) * microPerFrame 30 ≤ 150 * 1000 ∧
      150 * 1000 - ((slotCount 150 30 - 1 : ℕ) : ℚ) * microPerFrame 30 <
        microPerFrame 30) ∧
    (∃ t, (chunkTargets 0 150).getLast? = some t ∧ t ≤ 150 ∧
      (150 : ℚ) - t ≤ 1000 / videoConfigFps) :=
  C8_last_slot_coverage 150 30 0 150 (by norm_num) (by norm_num) (by norm_num)

